import Mathlib

/-!
Verification of the post-registry / donation-ledger contract
(`src/contract/src/lib.rs`) against its specification.

The contract state is a vector of posts; operations are
`new_post`, `get_posts`, `search_posts`, `delete_post`, `donate_author`,
`get_donations`.  Strings are Lean `String`s; the `U128`
donation accumulator is a `Nat` together with explicit `< 2 ^ 128`
bounds where 128-bit representability matters.
-/

/-- One `Post` record, mirroring `struct Post` of the source:
`id`, `author`, `title`, `body`, optional `image`, and the `U128`
donation accumulator `donation_amount` (modelled as `Nat`). -/
structure Post where
  id : String
  author : String
  title : String
  body : String
  image : Option String
  donation_amount : Nat
deriving DecidableEq

/-- The contract state `struct Posts { posts: Vec<Post> }`. -/
structure Posts where
  posts : List Post
deriving DecidableEq

namespace Posts

/-- `Posts::new`: the empty registry. -/
def new : Posts := { posts := [] }

/-- `Posts::new_post`: pushes a fresh `Post` onto the end of the vector.
The generated UUID and the caller account (`env::predecessor_account_id`)
are environment inputs, so they appear as explicit parameters `genId` and
`caller`; the `image` argument is stored verbatim in the new record
(the source never invokes `write_image_to_ipfs` here), and
`donation_amount` starts at `0`. -/
def new_post (r : Posts) (genId caller title body : String)
    (image : Option String) : Posts :=
  { posts := r.posts ++ [{ id := genId, author := caller, title := title,
                           body := body, image := image, donation_amount := 0 }] }

/-- `Posts::get_posts`: returns a clone of the whole vector. -/
def get_posts (r : Posts) : List Post :=
  r.posts

/-- Rust `str::contains` on the title: `pat` occurs as a contiguous
substring.  Executable helper `leadsWith pat s` checks that `pat` is an
initial segment of `s`. -/
def leadsWith : List Char → List Char → Bool
  | [], _ => true
  | _ :: _, [] => false
  | a :: as, b :: bs => a == b && leadsWith as bs

/-- Executable substring test: some suffix of `s` starts with `pat`. -/
def hasSub (pat : List Char) : List Char → Bool
  | [] => leadsWith pat []
  | c :: rest => leadsWith pat (c :: rest) || hasSub pat rest

/-- `Posts::search_posts`: filters the vector by
`post.title.contains(&search_string)`, keeping the vector's order. -/
def search_posts (r : Posts) (search_string : String) : List Post :=
  r.posts.filter (fun post => hasSub search_string.toList post.title.toList)

/-- `Posts::delete_post`: `retain(|post| post.id != post_id)`. -/
def delete_post (r : Posts) (post_id : String) : Posts :=
  { posts := r.posts.filter (fun post => post.id != post_id) }

/-- Helper for `donate_author`: `iter_mut().find(...)` updates the first
post whose `id` matches.  Returns `none` when the `u128` addition
`total_donation += amount_transfer` overflows.

Modelled from the spec: the overflow behaviour of the `+=` in
`donate_author` is fixed by the build profile (the repository's
`Cargo.toml` is not under `src/`); the spec prescribes overflow-checked
addition that is fatal to the single operation, which matches the
debug/test profile the repository's own tests run under, so an
overflowing addition aborts the call (`none`) instead of wrapping. -/
def donateFirst (post_id : String) (amount : Nat) :
    List Post → Option (List Post)
  | [] => some []
  | p :: ps =>
    if p.id == post_id then
      if p.donation_amount + amount < 2 ^ 128 then
        some ({ p with donation_amount := p.donation_amount + amount } :: ps)
      else
        none
    else
      (donateFirst post_id amount ps).map (fun qs => p :: qs)

/-- `Posts::donate_author`: looks up the first post with the given id;
if found, adds `amount` to its `donation_amount` (the value transfer to
the author is an external promise and does not touch the registry);
if not found, only a log line is emitted and the state is unchanged.
`none` is the aborted (panicked) call, which leaves no successor state. -/
def donate_author (r : Posts) (post_id : String) (amount : Nat) :
    Option Posts :=
  (donateFirst post_id amount r.posts).map (fun ps => { posts := ps })

/-- `Posts::get_donations`: declared on `&mut self` in the source, hence
modelled state-passing style as returning the result together with the
(unchanged, since the body never assigns) registry; the result is the
`donation_amount` of the first post with the given id, if any. -/
def get_donations (r : Posts) (post_id : String) : Option Nat × Posts :=
  ((r.posts.find? (fun post => post.id == post_id)).map
      (fun post => post.donation_amount), r)

end Posts

/-- `q` occurs in `t` as a contiguous, case-sensitive substring:
the mathematical counterpart of Rust `str::contains`. -/
def IsSubstr (q t : String) : Prop :=
  ∃ pre suf : List Char, t.toList = pre ++ q.toList ++ suf

/-- Follows the spec's words for `create_post`: when an image payload is
present the Image Resolver `resolve` is invoked on it and its returned
content address becomes `image`; on resolution failure (or no payload)
`image` is absent; the post is created either way.  This definition is
stated only to be compared with `Posts.new_post`, which the source
implements. -/
def new_post_asSpec (resolve : String → Option String) (r : Posts)
    (genId caller title body : String) (payload : Option String) : Posts :=
  { posts := r.posts ++ [{ id := genId, author := caller, title := title,
                           body := body, image := payload.bind resolve,
                           donation_amount := 0 }] }

/-- A sample resolver for the comparison above: content-addresses `s`
as `"Qm" ++ s`, always succeeding. -/
def resolverQm : String → Option String :=
  fun s => some ("Qm" ++ s)

/-- One externally invokable registry operation; the environment inputs
of `new_post` (generated UUID, caller account) are explicit fields. -/
inductive Op where
  | new_post (genId caller title body : String) (image : Option String)
  | get_posts
  | search_posts (q : String)
  | delete_post (id : String)
  | donate_author (id : String) (amount : Nat)
  | get_donations (id : String)
deriving DecidableEq

/-- Applying one operation to the registry; `none` is an aborted call
(only an overflowing donation aborts). -/
def applyOp (r : Posts) : Op → Option Posts
  | Op.new_post g c t b img => some (r.new_post g c t b img)
  | Op.get_posts => some r
  | Op.search_posts _ => some r
  | Op.delete_post i => some (r.delete_post i)
  | Op.donate_author i a => r.donate_author i a
  | Op.get_donations i => some (r.get_donations i).2

/-- The registry state after an operation: an aborted (panicked) call
rolls the transaction back to the pre-call state. -/
def applyOpTotal (r : Posts) (op : Op) : Posts :=
  (applyOp r op).getD r

/-- Running a sequence of operations from a starting state. -/
def runOps (r : Posts) : List Op → Posts
  | [] => r
  | op :: ops => runOps (applyOpTotal r op) ops

/-- UUID freshness of a single step: a `new_post` uses an id that no
current post carries (what `Uuid::new_v4` guarantees up to negligible
collision probability); every other operation is unconstrained. -/
def opFresh (r : Posts) : Op → Bool
  | Op.new_post g _ _ _ _ => r.posts.all (fun p => p.id != g)
  | _ => true

/-- UUID freshness along a whole trace. -/
def FreshIds (r : Posts) : List Op → Bool
  | [] => true
  | op :: ops => opFresh r op && FreshIds (applyOpTotal r op) ops

/-- The amount one operation successfully credits to the post with id
`i`: the donated amount when the operation is a donation to `i`, the
post exists, and the call does not abort; `0` otherwise. -/
def opDonated (r : Posts) (i : String) : Op → Nat
  | Op.donate_author j a =>
    if j = i ∧ (∃ p ∈ r.posts, p.id = j) ∧
        (applyOp r (Op.donate_author j a)).isSome = true then a else 0
  | _ => 0

/-- Total amount successfully donated to the post with id `i` along a
trace. -/
def donatedOk (r : Posts) (i : String) : List Op → Nat
  | [] => 0
  | op :: ops => opDonated r i op + donatedOk (applyOpTotal r op) i ops

/-- The recorded donation total of the (first) post with id `i`, `0`
when no such post exists. -/
def totOf (i : String) (l : List Post) : Nat :=
  match l.find? (fun p => p.id == i) with
  | some p => p.donation_amount
  | none => 0

/-- Pairwise-distinct ids. -/
def idsNodup (r : Posts) : Prop :=
  (r.posts.map Post.id).Nodup

/-- Sample post used to instantiate theorems with hypotheses. -/
def pA : Post :=
  { id := "a", author := "alice", title := "Hello World", body := "hi",
    image := none, donation_amount := 100 }

/-- Second sample post. -/
def pB : Post :=
  { id := "b", author := "bob", title := "Other", body := "yo",
    image := some "Qmxyz", donation_amount := 7 }

/-- Sample two-post registry. -/
def regAB : Posts := { posts := [pA, pB] }

/-- A post whose donation total sits at the `u128` maximum. -/
def pMax : Post :=
  { id := "m", author := "mallory", title := "Full", body := "f",
    image := none, donation_amount := 2 ^ 128 - 1 }

/-- Registry holding only `pMax`. -/
def regMax : Posts := { posts := [pMax] }

/-- A freshly created post that has received one donation of 100. -/
def pP1 : Post :=
  { id := "p1", author := "alice", title := "t", body := "b",
    image := none, donation_amount := 100 }

/-- Registry holding only `pP1`. -/
def regP1 : Posts := { posts := [pP1] }

/-- Sample trace: two creations, then a donation of 5 to the first. -/
def opsW3 : List Op :=
  [Op.new_post "a" "alice" "t" "b" none,
   Op.new_post "b" "bob" "u" "c" none,
   Op.donate_author "a" 5]

/-- The first post of `opsW3` after its donation. -/
def pW3 : Post :=
  { id := "a", author := "alice", title := "t", body := "b",
    image := none, donation_amount := 5 }

/-- Sample trace of two creations with fresh ids. -/
def opsW9 : List Op :=
  [Op.new_post "a" "alice" "t" "b" none,
   Op.new_post "b" "bob" "u" "c" none]

theorem leadsWith_iff (pat s : List Char) :
    Posts.leadsWith pat s = true ↔ ∃ t, s = pat ++ t := by
  induction pat generalizing s with
  | nil => simp [Posts.leadsWith]
  | cons a as ih =>
    cases s with
    | nil => simp [Posts.leadsWith]
    | cons b bs =>
      simp only [Posts.leadsWith, Bool.and_eq_true, beq_iff_eq, ih]
      constructor
      · rintro ⟨rfl, t, rfl⟩
        exact ⟨t, rfl⟩
      · rintro ⟨t, ht⟩
        injection ht with h1 h2
        exact ⟨h1.symm, t, h2⟩

theorem hasSub_iff (pat s : List Char) :
    Posts.hasSub pat s = true ↔ ∃ pre suf, s = pre ++ pat ++ suf := by
  induction s with
  | nil =>
    simp only [Posts.hasSub, leadsWith_iff]
    constructor
    · rintro ⟨t, ht⟩
      exact ⟨[], t, by rw [List.nil_append]; exact ht⟩
    · rintro ⟨pre, suf, h⟩
      have h' := h.symm
      rw [List.append_assoc] at h'
      rcases List.append_eq_nil.mp h' with ⟨hpre, hrest⟩
      rcases List.append_eq_nil.mp hrest with ⟨hpat, hsuf⟩
      exact ⟨[], by simp [hpat]⟩
  | cons c rest ih =>
      simp only [Posts.hasSub, Bool.or_eq_true, leadsWith_iff, ih]
      constructor
      · rintro (⟨t, ht⟩ | ⟨pre, suf, h⟩)
        · exact ⟨[], t, by simpa using ht⟩
        · exact ⟨c :: pre, suf, by simp [h]⟩
      · rintro ⟨pre, suf, h⟩
        cases pre with
        | nil => exact Or.inl ⟨suf, by simpa using h⟩
        | cons d pre =>
          injection h with h1 h2
          exact Or.inr ⟨pre, suf, h2⟩

/-- `hasSub` decides `IsSubstr`. -/
instance (q t : String) : Decidable (IsSubstr q t) :=
  decidable_of_iff (Posts.hasSub q.toList t.toList = true)
    (by rw [hasSub_iff]; exact Iff.rfl)

theorem hasSub_eq_decide (q t : String) :
    Posts.hasSub q.toList t.toList = decide (IsSubstr q t) := by
  by_cases h : IsSubstr q t
  · rw [decide_eq_true h]
    exact (hasSub_iff q.toList t.toList).mpr h
  · rw [decide_eq_false h, ← Bool.not_eq_true]
    intro hc
    exact h ((hasSub_iff q.toList t.toList).mp hc)

theorem hasSub_nil (s : List Char) : Posts.hasSub [] s = true := by
  cases s <;> simp [Posts.hasSub, Posts.leadsWith]

/-- C6: `search_posts` returns exactly the posts whose title contains
the query as a case-sensitive substring, in registry order (the result
is the substring-filter of the post vector, hence a sublist of it), and
the empty query returns every post. -/
theorem search_posts_spec (r : Posts) (q : String) :
    r.search_posts q = r.posts.filter (fun p => decide (IsSubstr q p.title)) ∧
    List.Sublist (r.search_posts q) r.posts ∧
    (∀ p, p ∈ r.search_posts q ↔ p ∈ r.posts ∧ IsSubstr q p.title) ∧
    r.search_posts "" = r.posts := by
  refine ⟨?_, ?_, ?_, ?_⟩
  · exact List.filter_congr (fun p _ => hasSub_eq_decide q p.title)
  · exact List.filter_sublist r.posts
  · intro p
    rw [Posts.search_posts, List.mem_filter, hasSub_eq_decide, decide_eq_true_eq]
  · rw [Posts.search_posts]
    exact List.filter_eq_self.mpr (fun p _ => hasSub_nil p.title.toList)

/-- C10: `Posts::new()` is the empty registry: `get_posts` returns the
empty sequence, `search_posts` returns the empty sequence for every
query, and `get_donations` returns `none` for every id. -/
theorem new_is_empty :
    Posts.new.get_posts = [] ∧
    (∀ q : String, Posts.new.search_posts q = []) ∧
    (∀ i : String, (Posts.new.get_donations i).1 = none) := by
  refine ⟨rfl, fun q => rfl, fun i => rfl⟩

theorem id_bne_eq_decide (p : Post) (i : String) :
    (p.id != i) = decide (¬ p.id = i) := by
  by_cases h : p.id = i <;> simp [h]

theorem filter_ne_length (l : List Post) (i : String)
    (hn : (l.map Post.id).Nodup) (he : ∃ p ∈ l, p.id = i) :
    (l.filter (fun p => p.id != i)).length + 1 = l.length := by
  induction l with
  | nil => rcases he with ⟨p, hp, -⟩; cases hp
  | cons p ps ih =>
    rw [List.map_cons, List.nodup_cons] at hn
    by_cases hp : p.id = i
    · rw [List.filter_cons_of_neg (by simp [hp])]
      have hps : ps.filter (fun q => q.id != i) = ps := by
        refine List.filter_eq_self.mpr (fun q hq => ?_)
        simp only [bne_iff_ne, ne_eq]
        intro hqi
        apply hn.1
        have hmem : q.id ∈ ps.map Post.id := List.mem_map_of_mem Post.id hq
        rw [hqi, ← hp] at hmem
        exact hmem
      rw [hps, List.length_cons]
    · rw [List.filter_cons_of_pos (by simp [hp])]
      rcases he with ⟨q, hq, hqi⟩
      rcases List.mem_cons.mp hq with rfl | hq'
      · exact absurd hqi hp
      · rw [List.length_cons, List.length_cons, ih hn.2 ⟨q, hq', hqi⟩]

/-- C7: `delete_post` removes exactly the posts whose id equals the
given value: the result is the vector filtered to the other ids (hence
an order-preserving sublist keeping every non-matching post); under
distinct ids, deleting an existing id shrinks the registry by exactly
one, and deleting an absent id is a no-op. -/
theorem delete_post_spec (r : Posts) (i : String) :
    (r.delete_post i).posts = r.posts.filter (fun p => decide (¬ p.id = i)) ∧
    (∀ p ∈ (r.delete_post i).posts, p.id ≠ i) ∧
    List.Sublist (r.delete_post i).posts r.posts ∧
    (∀ p ∈ r.posts, p.id ≠ i → p ∈ (r.delete_post i).posts) ∧
    ((r.posts.map Post.id).Nodup → (∃ p ∈ r.posts, p.id = i) →
      (r.delete_post i).posts.length + 1 = r.posts.length) ∧
    ((∀ p ∈ r.posts, p.id ≠ i) → r.delete_post i = r) := by
  refine ⟨?_, ?_, ?_, ?_, ?_, ?_⟩
  · exact List.filter_congr (fun p _ => id_bne_eq_decide p i)
  · intro p hp
    have := (List.mem_filter.mp hp).2
    simpa using this
  · exact List.filter_sublist r.posts
  · intro p hp hne
    exact List.mem_filter.mpr ⟨hp, by simpa using hne⟩
  · exact filter_ne_length r.posts i
  · intro hnone
    have : r.posts.filter (fun p => p.id != i) = r.posts :=
      List.filter_eq_self.mpr (fun p hp => by simpa using hnone p hp)
    cases r
    simpa [Posts.delete_post] using this

/-- Instantiation of `delete_post_spec`: deleting the existing id `"a"`
from the two-post registry `regAB` leaves one post and no post with id
`"a"`, and deleting the absent id `"zz"` changes nothing. -/
theorem delete_post_spec_witness :
    (regAB.delete_post "a").posts.length + 1 = regAB.posts.length ∧
    (∀ p ∈ (regAB.delete_post "a").posts, p.id ≠ "a") ∧
    regAB.delete_post "zz" = regAB := by
  refine ⟨(delete_post_spec regAB "a").2.2.2.2.1 (by decide)
      ⟨pA, by decide, by decide⟩,
    (delete_post_spec regAB "a").2.1,
    (delete_post_spec regAB "zz").2.2.2.2.2 (by decide)⟩

theorem find?_id_of_nodup (l : List Post) (i : String)
    (hn : (l.map Post.id).Nodup) (p : Post) (hp : p ∈ l) (hpi : p.id = i) :
    l.find? (fun q => q.id == i) = some p := by
  induction l with
  | nil => cases hp
  | cons q qs ih =>
    rw [List.map_cons, List.nodup_cons] at hn
    rcases List.mem_cons.mp hp with rfl | hp'
    · exact List.find?_cons_of_pos qs (by simp [hpi])
    · have hq : ¬ q.id = i := by
        intro hqi
        apply hn.1
        have hmem : p.id ∈ qs.map Post.id := List.mem_map_of_mem Post.id hp'
        rw [hpi, ← hqi] at hmem
        exact hmem
      rw [List.find?_cons_of_neg qs (by simp [hq])]
      exact ih hn.2 hp'

/-- C8: `get_donations` leaves the registry untouched (the second
component of the state-passing result is the input state), returns
`none` when no post has the given id, and returns the exact current
`donation_amount` of the post with that id when it exists (stated under
distinct ids, which pick that post out uniquely). -/
theorem get_donations_spec (r : Posts) (i : String) :
    (r.get_donations i).2 = r ∧
    ((∀ p ∈ r.posts, p.id ≠ i) → (r.get_donations i).1 = none) ∧
    ((r.posts.map Post.id).Nodup →
      ∀ p ∈ r.posts, p.id = i → (r.get_donations i).1 = some p.donation_amount) := by
  refine ⟨rfl, ?_, ?_⟩
  · intro h
    show (r.posts.find? (fun q => q.id == i)).map (fun q => q.donation_amount) = none
    rw [List.find?_eq_none.mpr (fun q hq => by simpa using h q hq)]
    rfl
  · intro hn p hp hpi
    show (r.posts.find? (fun q => q.id == i)).map (fun q => q.donation_amount) =
      some p.donation_amount
    rw [find?_id_of_nodup r.posts i hn p hp hpi]
    rfl

/-- Instantiation of `get_donations_spec` at `regAB`: the id `"b"` is
reported with its exact total `7` and the state is unchanged, and the
absent id `"zz"` is reported as `none`. -/
theorem get_donations_spec_witness :
    (regAB.get_donations "b").2 = regAB ∧
    (regAB.get_donations "b").1 = some 7 ∧
    (regAB.get_donations "zz").1 = none :=
  ⟨(get_donations_spec regAB "b").1,
   (get_donations_spec regAB "b").2.2 (by decide) pB (by decide) (by decide),
   (get_donations_spec regAB "zz").2.1 (by decide)⟩

theorem donateFirst_not_found (l : List Post) (i : String) (a : Nat)
    (h : ∀ p ∈ l, p.id ≠ i) : Posts.donateFirst i a l = some l := by
  induction l with
  | nil => rfl
  | cons p ps ih =>
    rw [Posts.donateFirst,
      if_neg (by simp [h p (List.mem_cons_self p ps)]),
      ih (fun q hq => h q (List.mem_cons_of_mem p hq))]
    rfl

theorem donateFirst_forall₂ (i : String) (a : Nat) (l l' : List Post)
    (h : Posts.donateFirst i a l = some l') :
    List.Forall₂ (fun p q => q.id = p.id ∧ q.author = p.author ∧
      q.title = p.title ∧ q.body = p.body ∧ q.image = p.image ∧
      (p.id ≠ i → q = p)) l l' := by
  induction l generalizing l' with
  | nil =>
    rw [Posts.donateFirst] at h
    cases h
    exact List.Forall₂.nil
  | cons p ps ih =>
    rw [Posts.donateFirst] at h
    by_cases hpi : p.id = i
    · rw [if_pos (by simp [hpi])] at h
      by_cases hlt : p.donation_amount + a < 2 ^ 128
      · rw [if_pos hlt] at h
        cases h
        refine List.Forall₂.cons ⟨rfl, rfl, rfl, rfl, rfl, fun hne => absurd hpi hne⟩ ?_
        exact List.forall₂_same.mpr (fun q hq => ⟨rfl, rfl, rfl, rfl, rfl, fun _ => rfl⟩)
      · rw [if_neg hlt] at h
        cases h
    · rw [if_neg (by simp [hpi])] at h
      rcases Option.map_eq_some'.mp h with ⟨qs, hqs, rfl⟩
      exact List.Forall₂.cons ⟨rfl, rfl, rfl, rfl, rfl, fun _ => rfl⟩ (ih qs hqs)

/-- C5: a non-aborting `donate_author` call relates the old and new post
vectors pointwise (same length and order): every post keeps its `id`,
`author`, `title`, `body` and `image`, and every post whose id differs
from the donated id is exactly unchanged; when no post carries the given
id the whole registry is exactly unchanged. -/
theorem donate_author_frame (r : Posts) (i : String) (a : Nat) (r' : Posts)
    (h : r.donate_author i a = some r') :
    List.Forall₂ (fun p q => q.id = p.id ∧ q.author = p.author ∧
      q.title = p.title ∧ q.body = p.body ∧ q.image = p.image ∧
      (p.id ≠ i → q = p)) r.posts r'.posts ∧
    ((∀ p ∈ r.posts, p.id ≠ i) → r' = r) := by
  rcases Option.map_eq_some'.mp h with ⟨ps, hps, rfl⟩
  constructor
  · exact donateFirst_forall₂ i a r.posts ps hps
  · intro hnone
    rw [donateFirst_not_found r.posts i a hnone] at hps
    cases hps
    cases r
    rfl

/-- Instantiation of `donate_author_frame`: donating 5 to id `"a"` in
`regAB` only raises that post's total to 105, leaving both records
otherwise intact, and donating to the absent id `"zz"` changes
nothing. -/
theorem donate_author_frame_witness :
    List.Forall₂ (fun p q => q.id = p.id ∧ q.author = p.author ∧
      q.title = p.title ∧ q.body = p.body ∧ q.image = p.image ∧
      (p.id ≠ "a" → q = p)) regAB.posts
      (Posts.mk [{ pA with donation_amount := 105 }, pB]).posts ∧
    ∀ r', regAB.donate_author "zz" 5 = some r' → r' = regAB := by
  constructor
  · exact (donate_author_frame regAB "a" 5
      (Posts.mk [{ pA with donation_amount := 105 }, pB]) (by decide)).1
  · intro r' h
    exact (donate_author_frame regAB "zz" 5 r' h).2 (by decide)

theorem donateFirst_overflow (l : List Post) (i : String) (a : Nat) (p : Post)
    (hfind : l.find? (fun q => q.id == i) = some p)
    (hover : 2 ^ 128 ≤ p.donation_amount + a) :
    Posts.donateFirst i a l = none := by
  induction l with
  | nil => cases hfind
  | cons q qs ih =>
    by_cases hq : q.id = i
    · rw [List.find?_cons_of_pos qs (by simp [hq])] at hfind
      cases hfind
      rw [Posts.donateFirst, if_pos (by simp [hq]), if_neg (Nat.not_lt.mpr hover)]
    · rw [List.find?_cons_of_neg qs (by simp [hq])] at hfind
      rw [Posts.donateFirst, if_neg (by simp [hq]), ih hfind]
      rfl

/-- C2: when crediting `amount` to the existing post with the given id
would exceed the largest `u128` value, `donate_author` aborts the single
call (`none`: the checked addition panics instead of wrapping modulo
`2 ^ 128`), and the surviving registry state is the unchanged pre-call
state. -/
theorem donate_author_overflow (r : Posts) (i : String) (a : Nat) (p : Post)
    (hfind : r.posts.find? (fun q => q.id == i) = some p)
    (hover : 2 ^ 128 ≤ p.donation_amount + a) :
    r.donate_author i a = none ∧
    applyOpTotal r (Op.donate_author i a) = r := by
  have h : r.donate_author i a = none := by
    rw [Posts.donate_author, donateFirst_overflow r.posts i a p hfind hover]
    rfl
  refine ⟨h, ?_⟩
  rw [applyOpTotal]
  show (r.donate_author i a).getD r = r
  rw [h]
  rfl

/-- Instantiation of `donate_author_overflow`: `regMax` holds one post
whose total is the `u128` maximum, so donating 1 more aborts the call
and the surviving state is `regMax` unchanged. -/
theorem donate_author_overflow_witness :
    regMax.donate_author "m" 1 = none ∧
    applyOpTotal regMax (Op.donate_author "m" 1) = regMax :=
  donate_author_overflow regMax "m" 1 pMax (by decide) (by decide)

theorem donateFirst_found (l : List Post) (i : String) (a : Nat) (p : Post)
    (hfind : l.find? (fun q => q.id == i) = some p)
    (hlt : p.donation_amount + a < 2 ^ 128) :
    ∃ l', Posts.donateFirst i a l = some l' ∧
      l'.find? (fun q => q.id == i) = some
        { p with donation_amount := p.donation_amount + a } := by
  induction l with
  | nil => cases hfind
  | cons q qs ih =>
    by_cases hq : q.id = i
    · rw [List.find?_cons_of_pos qs (by simp [hq])] at hfind
      cases hfind
      refine ⟨{ p with donation_amount := p.donation_amount + a } :: qs, ?_, ?_⟩
      · rw [Posts.donateFirst, if_pos (by simp [hq]), if_pos hlt]
      · exact List.find?_cons_of_pos qs (by simp [hq])
    · rw [List.find?_cons_of_neg qs (by simp [hq])] at hfind
      rcases ih hfind with ⟨qs', hqs', hfind'⟩
      refine ⟨q :: qs', ?_, ?_⟩
      · rw [Posts.donateFirst, if_neg (by simp [hq]), hqs']
        rfl
      · rw [List.find?_cons_of_neg qs' (by simp [hq])]
        exact hfind'

/-- C4: two successive donations `a` then `b` to an existing post, with
the combined sum representable in `u128`, both succeed, and they leave
that post's total at exactly its previous total plus `a` plus `b` (no
other outcome). -/
theorem donate_author_twice (r : Posts) (i : String) (a b : Nat) (p : Post)
    (hfind : r.posts.find? (fun q => q.id == i) = some p)
    (hrep : p.donation_amount + a + b < 2 ^ 128) :
    ∃ r' r'', r.donate_author i a = some r' ∧
      r'.donate_author i b = some r'' ∧
      r''.posts.find? (fun q => q.id == i) = some
        { p with donation_amount := p.donation_amount + a + b } := by
  have ha : p.donation_amount + a < 2 ^ 128 :=
    lt_of_le_of_lt (Nat.le_add_right _ _) hrep
  rcases donateFirst_found r.posts i a p hfind ha with ⟨l', hl', hfind'⟩
  rcases donateFirst_found l' i b _ hfind' hrep with ⟨l'', hl'', hfind''⟩
  refine ⟨{ posts := l' }, { posts := l'' }, ?_, ?_, hfind''⟩
  · rw [Posts.donate_author, hl']
    rfl
  · show (Posts.donateFirst i b l').map (fun ps => Posts.mk ps) = some (Posts.mk l'')
    rw [hl'']
    rfl

/-- Instantiation of `donate_author_twice`: create a fresh post, donate
100 (evaluating the code), then donate 100 and 100 again through the
theorem: the recorded total is exactly 300. -/
theorem donate_author_twice_witness :
    (Posts.new.new_post "p1" "alice" "t" "b" none).donate_author "p1" 100 =
      some regP1 ∧
    ∃ r' r'', regP1.donate_author "p1" 100 = some r' ∧
      r'.donate_author "p1" 100 = some r'' ∧
      r''.posts.find? (fun q => q.id == "p1") = some
        { id := "p1", author := "alice", title := "t", body := "b",
          image := none, donation_amount := 300 } :=
  ⟨by decide, donate_author_twice regP1 "p1" 100 100 pP1 (by decide) (by decide)⟩

/-- C1 fails on the code: `new_post` never invokes an image resolver.
With the always-succeeding resolver `resolverQm` — which maps the
payload `"img"` to the content address `"Qmimg"` — the created post's
`image` is the raw payload `"img"`, not the address the resolver
returns (which the spec-following `new_post_asSpec` would store). -/
theorem new_post_resolver_counterexample :
    resolverQm "img" = some "Qmimg" ∧
    (Posts.new.new_post "id0" "alice" "t" "b" (some "img")).posts.map Post.image
      = [some "img"] ∧
    (new_post_asSpec resolverQm Posts.new "id0" "alice" "t" "b"
        (some "img")).posts.map Post.image = [some "Qmimg"] ∧
    ¬ (Posts.new.new_post "id0" "alice" "t" "b" (some "img")).posts.map Post.image
      = [some "Qmimg"] :=
  ⟨rfl, rfl, rfl, by decide⟩

/-- C1 (amended): `new_post` always creates the post — the vector grows
by exactly one and the existing records are untouched — and it stores
the supplied payload verbatim as the new post's `image` (absent exactly
when no payload is given); no resolver is invoked, so no resolver output
is involved. -/
theorem new_post_stores_payload_verbatim (r : Posts)
    (genId caller title body : String) (image : Option String) :
    (r.new_post genId caller title body image).posts.length
      = r.posts.length + 1 ∧
    (r.new_post genId caller title body image).posts.take r.posts.length
      = r.posts ∧
    (r.new_post genId caller title body image).posts.getLast? = some
      { id := genId, author := caller, title := title, body := body,
        image := image, donation_amount := 0 } := by
  refine ⟨?_, ?_, ?_⟩
  · show (r.posts ++ [_]).length = r.posts.length + 1
    simp
  · show (r.posts ++ [_]).take r.posts.length = r.posts
    exact List.take_left r.posts _
  · show (r.posts ++ [_]).getLast? = some _
    exact List.getLast?_concat r.posts

theorem mem_id_unique (l : List Post) (hn : (l.map Post.id).Nodup)
    (p p' : Post) (hp : p ∈ l) (hp' : p' ∈ l) (h : p.id = p'.id) : p = p' := by
  induction l with
  | nil => cases hp
  | cons q qs ih =>
    rw [List.map_cons, List.nodup_cons] at hn
    rcases List.mem_cons.mp hp with rfl | hp2
    · rcases List.mem_cons.mp hp' with rfl | hp2'
      · rfl
      · exfalso
        apply hn.1
        rw [h]
        exact List.mem_map_of_mem Post.id hp2'
    · rcases List.mem_cons.mp hp' with rfl | hp2'
      · exfalso
        apply hn.1
        rw [← h]
        exact List.mem_map_of_mem Post.id hp2
      · exact ih hn.2 hp2 hp2'

theorem donateFirst_mem (i : String) (a : Nat) (l l' : List Post)
    (h : Posts.donateFirst i a l = some l') (p' : Post) (hp' : p' ∈ l') :
    p' ∈ l ∨ ∃ q ∈ l, q.id = i ∧
      p' = { q with donation_amount := q.donation_amount + a } := by
  induction l generalizing l' with
  | nil =>
    rw [Posts.donateFirst] at h
    cases h
    cases hp'
  | cons p ps ih =>
    rw [Posts.donateFirst] at h
    by_cases hpi : p.id = i
    · rw [if_pos (by simp [hpi])] at h
      by_cases hlt : p.donation_amount + a < 2 ^ 128
      · rw [if_pos hlt] at h
        cases h
        rcases List.mem_cons.mp hp' with rfl | hmem
        · exact Or.inr ⟨p, List.mem_cons_self p ps, hpi, rfl⟩
        · exact Or.inl (List.mem_cons_of_mem p hmem)
      · rw [if_neg hlt] at h
        cases h
    · rw [if_neg (by simp [hpi])] at h
      rcases Option.map_eq_some'.mp h with ⟨qs, hqs, rfl⟩
      rcases List.mem_cons.mp hp' with rfl | hmem
      · exact Or.inl (List.mem_cons_self p' ps)
      · rcases ih qs hqs hmem with hin | ⟨q, hq, hqi, heq⟩
        · exact Or.inl (List.mem_cons_of_mem p hin)
        · exact Or.inr ⟨q, List.mem_cons_of_mem p hq, hqi, heq⟩

theorem donateFirst_map_id (i : String) (a : Nat) (l l' : List Post)
    (h : Posts.donateFirst i a l = some l') :
    l'.map Post.id = l.map Post.id := by
  induction l generalizing l' with
  | nil =>
    rw [Posts.donateFirst] at h
    cases h
    rfl
  | cons p ps ih =>
    rw [Posts.donateFirst] at h
    by_cases hpi : p.id = i
    · rw [if_pos (by simp [hpi])] at h
      by_cases hlt : p.donation_amount + a < 2 ^ 128
      · rw [if_pos hlt] at h
        cases h
        rfl
      · rw [if_neg hlt] at h
        cases h
    · rw [if_neg (by simp [hpi])] at h
      rcases Option.map_eq_some'.mp h with ⟨qs, hqs, rfl⟩
      rw [List.map_cons, List.map_cons, ih qs hqs]

theorem find?_filter_ne (l : List Post) (i j : String) (hij : j ≠ i) :
    (l.filter (fun p => p.id != j)).find? (fun p => p.id == i)
      = l.find? (fun p => p.id == i) := by
  induction l with
  | nil => rfl
  | cons p ps ih =>
    by_cases hpj : p.id = j
    · rw [List.filter_cons_of_neg (by simp [hpj]),
        List.find?_cons_of_neg ps (by simp [hpj, hij]), ih]
    · rw [List.filter_cons_of_pos (by simp [hpj])]
      by_cases hpi : p.id = i
      · rw [List.find?_cons_of_pos _ (by simp [hpi]),
          List.find?_cons_of_pos ps (by simp [hpi])]
      · rw [List.find?_cons_of_neg _ (by simp [hpi]),
          List.find?_cons_of_neg ps (by simp [hpi]), ih]

theorem totOf_eq_of_find? (i : String) (l : List Post) (p : Post)
    (h : l.find? (fun q => q.id == i) = some p) :
    totOf i l = p.donation_amount := by
  rw [totOf, h]

theorem totOf_eq_zero_of_find? (i : String) (l : List Post)
    (h : l.find? (fun q => q.id == i) = none) :
    totOf i l = 0 := by
  rw [totOf, h]

theorem totOf_append_zero (i : String) (l : List Post) (x : Post)
    (hx : x.donation_amount = 0) :
    totOf i (l ++ [x]) ≤ totOf i l := by
  cases hf : l.find? (fun q => q.id == i) with
  | some p =>
    have hall : (l ++ [x]).find? (fun q => q.id == i) = some p := by
      rw [List.find?_append, hf]
      rfl
    rw [totOf_eq_of_find? i _ p hall, totOf_eq_of_find? i l p hf]
  | none =>
    rw [totOf_eq_zero_of_find? i l hf]
    cases hg : (l ++ [x]).find? (fun q => q.id == i) with
    | some y =>
      have hsingle : List.find? (fun q => q.id == i) [x] = some y := by
        rw [List.find?_append, hf, Option.none_or] at hg
        exact hg
      have hyx : y = x := by simpa using List.mem_of_find?_eq_some hsingle
      rw [totOf_eq_of_find? i _ y hg, hyx, hx]
    | none =>
      rw [totOf_eq_zero_of_find? i _ hg]

theorem donateFirst_totOf_self (i : String) (a : Nat) (l l' : List Post)
    (p : Post) (hfind : l.find? (fun q => q.id == i) = some p)
    (h : Posts.donateFirst i a l = some l') :
    totOf i l' = totOf i l + a := by
  have hlt : p.donation_amount + a < 2 ^ 128 := by
    by_contra hge
    rw [donateFirst_overflow l i a p hfind (Nat.not_lt.mp hge)] at h
    cases h
  rcases donateFirst_found l i a p hfind hlt with ⟨l'', hl'', hf''⟩
  rw [hl''] at h
  cases h
  rw [totOf_eq_of_find? i _ _ hf'', totOf_eq_of_find? i l p hfind]

theorem donateFirst_totOf_other (i j : String) (a : Nat) (l l' : List Post)
    (hij : i ≠ j) (h : Posts.donateFirst j a l = some l') :
    totOf i l' = totOf i l := by
  induction l generalizing l' with
  | nil =>
    rw [Posts.donateFirst] at h
    cases h
    rfl
  | cons p ps ih =>
    rw [Posts.donateFirst] at h
    by_cases hpj : p.id = j
    · rw [if_pos (by simp [hpj])] at h
      by_cases hlt : p.donation_amount + a < 2 ^ 128
      · rw [if_pos hlt] at h
        cases h
        have hpi : ¬ p.id = i := by
          intro hc
          exact hij (by rw [← hc, hpj])
        rw [totOf, List.find?_cons_of_neg ps (by simp [hpi]),
          totOf, List.find?_cons_of_neg ps (by simp [hpi])]
      · rw [if_neg hlt] at h
        cases h
    · rw [if_neg (by simp [hpj])] at h
      rcases Option.map_eq_some'.mp h with ⟨qs, hqs, rfl⟩
      by_cases hpi : p.id = i
      · rw [totOf, List.find?_cons_of_pos qs (by simp [hpi]),
          totOf, List.find?_cons_of_pos ps (by simp [hpi])]
      · rw [totOf, List.find?_cons_of_neg qs (by simp [hpi]),
          totOf, List.find?_cons_of_neg ps (by simp [hpi])]
        exact ih qs hqs

theorem totOf_applyOpTotal (r : Posts) (op : Op) (i : String) :
    totOf i (applyOpTotal r op).posts ≤ totOf i r.posts + opDonated r i op := by
  cases op with
  | new_post g c t b img =>
    have h := totOf_append_zero i r.posts (Post.mk g c t b img 0) rfl
    exact Nat.le_trans h (Nat.le_add_right _ _)
  | get_posts =>
    show totOf i r.posts ≤ totOf i r.posts + 0
    rw [Nat.add_zero]
  | search_posts q =>
    show totOf i r.posts ≤ totOf i r.posts + 0
    rw [Nat.add_zero]
  | get_donations j =>
    show totOf i r.posts ≤ totOf i r.posts + 0
    rw [Nat.add_zero]
  | delete_post j =>
    show totOf i (r.posts.filter (fun p => p.id != j)) ≤ totOf i r.posts + 0
    rw [Nat.add_zero]
    by_cases hij : j = i
    · subst hij
      have hnone : (r.posts.filter (fun p => p.id != j)).find?
          (fun p => p.id == j) = none := by
        rw [List.find?_eq_none]
        intro x hx
        have := (List.mem_filter.mp hx).2
        simpa using this
      rw [totOf_eq_zero_of_find? _ _ hnone]
      exact Nat.zero_le _
    · rw [totOf, find?_filter_ne r.posts i j hij]
      exact le_rfl
  | donate_author j a =>
    cases hd : r.donate_author j a with
    | none =>
      show totOf i ((r.donate_author j a).getD r).posts ≤ _
      rw [hd, Option.getD_none]
      exact Nat.le_add_right _ _
    | some r' =>
      have hshape := hd
      rw [Posts.donate_author] at hshape
      rcases Option.map_eq_some'.mp hshape with ⟨ps, hps, rfl⟩
      show totOf i ((r.donate_author j a).getD r).posts ≤ _
      rw [hd, Option.getD_some]
      cases hf : r.posts.find? (fun q => q.id == j) with
      | none =>
        have hnf : Posts.donateFirst j a r.posts = some r.posts :=
          donateFirst_not_found r.posts j a
            (fun p hp => by simpa using List.find?_eq_none.mp hf p hp)
        rw [hnf] at hps
        cases hps
        exact Nat.le_add_right _ _
      | some p =>
        by_cases hij : j = i
        · subst hij
          have heq : totOf j ps = totOf j r.posts + a :=
            donateFirst_totOf_self j a r.posts ps p hf hps
          have hcond : opDonated r j (Op.donate_author j a) = a := by
            rw [opDonated, if_pos]
            refine ⟨rfl, ⟨p, List.mem_of_find?_eq_some hf,
              by simpa using List.find?_some hf⟩, ?_⟩
            rw [show applyOp r (Op.donate_author j a) = r.donate_author j a from rfl,
              hd]
            rfl
          rw [hcond]
          exact Nat.le_of_eq heq
        · have heq : totOf i ps = totOf i r.posts :=
            donateFirst_totOf_other i j a r.posts ps (fun hc => hij hc.symm) hps
          rw [heq]
          exact Nat.le_add_right _ _

theorem totOf_runOps (r : Posts) (ops : List Op) (i : String) :
    totOf i (runOps r ops).posts ≤ totOf i r.posts + donatedOk r i ops := by
  induction ops generalizing r with
  | nil => exact Nat.le_add_right _ _
  | cons op ops ih =>
    rw [runOps, donatedOk]
    calc totOf i (runOps (applyOpTotal r op) ops).posts
        ≤ totOf i (applyOpTotal r op).posts
            + donatedOk (applyOpTotal r op) i ops := ih _
      _ ≤ totOf i r.posts + opDonated r i op
            + donatedOk (applyOpTotal r op) i ops :=
          Nat.add_le_add_right (totOf_applyOpTotal r op i) _
      _ = totOf i r.posts
            + (opDonated r i op + donatedOk (applyOpTotal r op) i ops) :=
          Nat.add_assoc _ _ _

theorem idsNodup_applyOpTotal (r : Posts) (op : Op)
    (hn : idsNodup r) (hf : opFresh r op = true) :
    idsNodup (applyOpTotal r op) := by
  cases op with
  | new_post g c t b img =>
    simp only [opFresh, List.all_eq_true, bne_iff_ne, ne_eq] at hf
    show ((r.posts ++ [Post.mk g c t b img 0]).map Post.id).Nodup
    rw [List.map_append, List.nodup_append]
    refine ⟨hn, List.nodup_singleton g, ?_⟩
    intro x hx hxg
    rcases List.mem_map.mp hx with ⟨p, hp, rfl⟩
    rw [List.map_singleton, List.mem_singleton] at hxg
    exact hf p hp hxg
  | get_posts => exact hn
  | search_posts q => exact hn
  | get_donations j => exact hn
  | delete_post j =>
    show ((r.posts.filter (fun p => p.id != j)).map Post.id).Nodup
    exact ((List.filter_sublist r.posts).map Post.id).nodup hn
  | donate_author j a =>
    cases hd : r.donate_author j a with
    | none =>
      show idsNodup ((r.donate_author j a).getD r)
      rw [hd, Option.getD_none]
      exact hn
    | some r' =>
      have hshape := hd
      rw [Posts.donate_author] at hshape
      rcases Option.map_eq_some'.mp hshape with ⟨ps, hps, rfl⟩
      show idsNodup ((r.donate_author j a).getD r)
      rw [hd, Option.getD_some]
      show (ps.map Post.id).Nodup
      rw [donateFirst_map_id j a r.posts ps hps]
      exact hn

theorem idsNodup_runOps (r : Posts) (ops : List Op)
    (hn : idsNodup r) (hf : FreshIds r ops = true) :
    idsNodup (runOps r ops) := by
  induction ops generalizing r with
  | nil => exact hn
  | cons op ops ih =>
    rw [FreshIds, Bool.and_eq_true] at hf
    exact ih _ (idsNodup_applyOpTotal r op hn hf.1) hf.2

theorem runOps_newOnly_length (r : Posts) (ops : List Op)
    (h : ∀ op ∈ ops, ∃ g c t b img, op = Op.new_post g c t b img) :
    (runOps r ops).posts.length = r.posts.length + ops.length := by
  induction ops generalizing r with
  | nil => rfl
  | cons op ops ih =>
    rcases h op (List.mem_cons_self op ops) with ⟨g, c, t, b, img, rfl⟩
    rw [runOps, ih _ (fun o ho => h o (List.mem_cons_of_mem _ ho))]
    show (r.posts ++ [Post.mk g c t b img 0]).length + ops.length
      = r.posts.length + (ops.length + 1)
    rw [List.length_append, List.length_singleton, Nat.add_assoc,
      Nat.add_comm 1 ops.length]

/-- C9: starting from the empty registry, any operation trace whose
`new_post` steps use fresh UUIDs (the guarantee `Uuid::new_v4` supplies)
yields pairwise-distinct post ids; in particular a trace consisting of N
`new_post` operations yields a registry of exactly N posts, each with a
distinct id by the first part. -/
theorem reachable_ids_distinct (ops : List Op)
    (hf : FreshIds Posts.new ops = true) :
    idsNodup (runOps Posts.new ops) ∧
    ((∀ op ∈ ops, ∃ g c t b img, op = Op.new_post g c t b img) →
      (runOps Posts.new ops).posts.length = ops.length) := by
  refine ⟨idsNodup_runOps Posts.new ops List.nodup_nil hf, ?_⟩
  intro h
  rw [runOps_newOnly_length Posts.new ops h]
  exact Nat.zero_add _

/-- Instantiation of `reachable_ids_distinct`: after the two fresh
creations of `opsW9` the registry has pairwise-distinct ids and exactly
2 posts. -/
theorem reachable_ids_distinct_witness :
    idsNodup (runOps Posts.new opsW9) ∧
    (runOps Posts.new opsW9).posts.length = 2 := by
  have h := reachable_ids_distinct opsW9 (by decide)
  refine ⟨h.1, ?_⟩
  have hlen := h.2 ?_
  · exact hlen
  · intro op hop
    rcases List.mem_cons.mp hop with rfl | hop2
    · exact ⟨_, _, _, _, _, rfl⟩
    rcases List.mem_cons.mp hop2 with rfl | hop3
    · exact ⟨_, _, _, _, _, rfl⟩
    cases hop3

/-- C3: donation totals are monotone and bounded by successful
donations.  Part one: across any single operation on a registry with
pairwise-distinct ids whose step is uuid-fresh, a post carrying id `i`
before and after the operation never sees its `donation_amount`
decrease.  Part two: along any uuid-fresh trace from the empty registry,
the recorded total of the post carrying id `i` never exceeds the total
amount successfully donated to `i` over the trace. -/
theorem donation_monotone_bounded :
    (∀ (r : Posts) (op : Op) (i : String), idsNodup r → opFresh r op = true →
      ∀ p ∈ r.posts, ∀ p' ∈ (applyOpTotal r op).posts,
        p.id = i → p'.id = i → p.donation_amount ≤ p'.donation_amount) ∧
    (∀ (ops : List Op) (i : String), FreshIds Posts.new ops = true →
      ∀ p ∈ (runOps Posts.new ops).posts, p.id = i →
        p.donation_amount ≤ donatedOk Posts.new i ops) := by
  constructor
  · intro r op i hn hf p hp p' hp' hpi hpi'
    cases op with
    | new_post g c t b img =>
      simp only [opFresh, List.all_eq_true, bne_iff_ne, ne_eq] at hf
      have hp'mem : p' ∈ r.posts ++ [Post.mk g c t b img 0] := hp'
      rcases List.mem_append.mp hp'mem with hin | hone
      · rw [mem_id_unique r.posts hn p p' hp hin (by rw [hpi, hpi'])]
      · rw [List.mem_singleton] at hone
        exfalso
        apply hf p hp
        rw [hpi, ← hpi', hone]
    | get_posts =>
      rw [mem_id_unique r.posts hn p p' hp hp' (by rw [hpi, hpi'])]
    | search_posts q =>
      rw [mem_id_unique r.posts hn p p' hp hp' (by rw [hpi, hpi'])]
    | get_donations j =>
      rw [mem_id_unique r.posts hn p p' hp hp' (by rw [hpi, hpi'])]
    | delete_post j =>
      have hin : p' ∈ r.posts := (List.mem_filter.mp hp').1
      rw [mem_id_unique r.posts hn p p' hp hin (by rw [hpi, hpi'])]
    | donate_author j a =>
      cases hd : r.donate_author j a with
      | none =>
        have hp'r : p' ∈ r.posts := by
          have : applyOpTotal r (Op.donate_author j a) = r := by
            show (r.donate_author j a).getD r = r
            rw [hd, Option.getD_none]
          rw [this] at hp'
          exact hp'
        rw [mem_id_unique r.posts hn p p' hp hp'r (by rw [hpi, hpi'])]
      | some r' =>
        have hshape := hd
        rw [Posts.donate_author] at hshape
        rcases Option.map_eq_some'.mp hshape with ⟨ps, hps, rfl⟩
        have hp'ps : p' ∈ ps := by
          have : applyOpTotal r (Op.donate_author j a) = Posts.mk ps := by
            show (r.donate_author j a).getD r = Posts.mk ps
            rw [hd, Option.getD_some]
          rw [this] at hp'
          exact hp'
        rcases donateFirst_mem j a r.posts ps hps p' hp'ps with hin | ⟨q, hq, hqj, heq⟩
        · rw [mem_id_unique r.posts hn p p' hp hin (by rw [hpi, hpi'])]
        · have hpq : p = q := by
            apply mem_id_unique r.posts hn p q hp hq
            rw [hpi, ← hpi', heq]
          rw [heq, ← hpq]
          exact Nat.le_add_right _ _
  · intro ops i hf p hp hpi
    have hn : idsNodup (runOps Posts.new ops) :=
      idsNodup_runOps Posts.new ops List.nodup_nil hf
    have hfind : (runOps Posts.new ops).posts.find? (fun q => q.id == i) = some p :=
      find?_id_of_nodup (runOps Posts.new ops).posts i hn p hp hpi
    have h1 : totOf i (runOps Posts.new ops).posts = p.donation_amount :=
      totOf_eq_of_find? i _ p hfind
    have h2 := totOf_runOps Posts.new ops i
    rw [h1] at h2
    have h3 : totOf i Posts.new.posts = 0 := rfl
    rw [h3, Nat.zero_add] at h2
    exact h2

/-- Instantiation of part two of `donation_monotone_bounded` on the
trace `opsW3`: the post with id `"a"` ends recorded at 5, which does not
exceed the 5 successfully donated to it along the trace. -/
theorem donation_monotone_bounded_witness :
    pW3 ∈ (runOps Posts.new opsW3).posts ∧
    pW3.donation_amount ≤ donatedOk Posts.new "a" opsW3 :=
  ⟨by decide,
   donation_monotone_bounded.2 opsW3 "a" (by decide) pW3 (by decide) (by decide)⟩
